import Mathlib

set_option maxRecDepth 100000

/-!
Verification of the two batch utilities of the decisions-knowledge-graph-data
repository against their natural-language specification.

Part 1 embeds `scripts/extract-provision-contexts.py` (the Context-Window
Extractor): the compiled regular expression `PATTERN`, the per-match window
arithmetic and boundary cleaning of `extract_snippets`, the whitespace
normalization, and the stdin/stdout `main` wrapper.

Part 2 embeds `analyze_cited_provisions.py` (the Provision-Count Ranker):
per-file parsing with error skipping (`analyze_provisions`), the stable
descending sort by provision count, the top-10 selection, and the aggregate
statistics of `main`.

Texts are modelled as `List Char` (one entry per Python string index) and
machine-level effects (exceptions, streams) as explicit `Except`/`Option`
values, following the source line by line.
-/

/-- Python `\s` on the ASCII range: the whitespace class used by the
`re.sub(r'\s+', ' ', ...)` normalization step and by `str.strip()`. -/
def pyIsSpace (c : Char) : Bool :=
  c == ' ' || c == '\t' || c == '\n' || c == '\r' || c == '\x0b' || c == '\x0c'

/-- Python `\w` on the ASCII range: letters, digits and underscore.  Used by
the `\b` word-boundary assertions of `PATTERN`. -/
def isWordChar (c : Char) : Bool :=
  c.isAlphanum || c == '_'

/-- Whether the character at index `i` of `t` exists and is a word character. -/
def wordAt (t : List Char) (i : Nat) : Bool :=
  match t.get? i with
  | some c => isWordChar c
  | none => false

/-- Python `\b` at index `i` of `t`: exactly one of the two adjacent
positions holds a word character. -/
def reBoundary (t : List Char) (i : Nat) : Bool :=
  (if i == 0 then false else wordAt t (i - 1)) != wordAt t i

/-- The `KEYWORDS` list of the source, in the alternation order of `PATTERN`
(Python `re` alternation takes the first alternative that lets the whole
pattern succeed).  The periods of the abbreviated forms are literal
characters, exactly as produced by the raw strings `art\.`, `artt\.`,
`arts\.`. -/
def KEYWORDS : List (List Char) :=
  ["article".toList, "articles".toList, "artikel".toList, "artikels".toList,
   "artikelen".toList, "art.".toList, "artt.".toList, "arts.".toList]

/-- Case-insensitive literal match of `k` at index `i` of `t`
(`re.IGNORECASE` on the ASCII keywords: the text character is lowered and
compared with the lowercase pattern character). -/
def matchesAt (t : List Char) (i : Nat) : List Char → Bool
  | [] => true
  | c :: ks =>
    match t.get? i with
    | some d => d.toLower == c && matchesAt t (i + 1) ks
    | none => false

/-- One attempt of `PATTERN` at start index `i`: the leading `\b` must hold,
then the first alternative of `KEYWORDS` that matches literally and whose
end position satisfies the trailing `\b` wins; the result is the length of
the matched text. -/
def matchKeywordAt (t : List Char) (i : Nat) : Option Nat :=
  if reBoundary t i then
    (KEYWORDS.find? (fun k => matchesAt t i k && reBoundary t (i + k.length))).map
      List.length
  else
    none

/-- Scan of `PATTERN.finditer`: fuelled left-to-right search producing the
non-overlapping matches as `(start, end)` index pairs; after a match the
scan resumes at the match's end. -/
def finditerAux (t : List Char) : Nat → Nat → List (Nat × Nat)
  | _, 0 => []
  | i, fuel + 1 =>
    if t.length < i then []
    else
      match matchKeywordAt t i with
      | some L => (i, i + L) :: finditerAux t (i + L) fuel
      | none => finditerAux t (i + 1) fuel

/-- All matches of `PATTERN` in `t`, in order, as `(start, end)` pairs. -/
def finditer (t : List Char) : List (Nat × Nat) :=
  finditerAux t 0 (t.length + 1)

/-- The `CONTEXT_WINDOW_SIZE` constant of the source: characters kept on
each side of a keyword match. -/
def CONTEXT_WINDOW_SIZE : Nat := 250

/-- Python `text.rfind(' ', 0, n)` wrapped in an `Option`: the greatest
index `j < n` with `t[j] = ' '`, or `none`. -/
def rfindSpace (t : List Char) : Nat → Option Nat
  | 0 => none
  | n + 1 => if t.get? n == some ' ' then some n else rfindSpace t n

/-- Fuelled forward search for a space, starting at index `i`. -/
def findSpaceAux (t : List Char) : Nat → Nat → Option Nat
  | _, 0 => none
  | i, fuel + 1 =>
    match t.get? i with
    | none => none
    | some c => if c == ' ' then some i else findSpaceAux t (i + 1) fuel

/-- Python `text.find(' ', n)` wrapped in an `Option`: the least index
`j ≥ n` with `t[j] = ' '`, or `none`. -/
def findSpaceFrom (t : List Char) (n : Nat) : Option Nat :=
  findSpaceAux t n (t.length + 1 - n)

/-- Lines 52-54 of the extractor: `clean_start = text.rfind(' ', 0, raw_start) + 1`
followed by the `clean_start == 0 and raw_start > 0` fallback to `raw_start`. -/
def cleanStart (t : List Char) (rawStart : Nat) : Nat :=
  match rfindSpace t rawStart with
  | some j => j + 1
  | none => if rawStart > 0 then rawStart else 0

/-- Lines 57-59 of the extractor: `clean_end = text.find(' ', raw_end)` with
the `-1` result replaced by `len(text)`. -/
def cleanEnd (t : List Char) (rawEnd : Nat) : Nat :=
  match findSpaceFrom t rawEnd with
  | some j => j
  | none => t.length

/-- Python slice `t[a:b]`. -/
def pySlice (t : List Char) (a b : Nat) : List Char :=
  (t.take b).drop a

/-- One pass of `re.sub(r'\s+', ' ', s)`: every maximal run of whitespace
characters is replaced by a single space. -/
def collapseWS : List Char → List Char
  | [] => []
  | [c] => [if pyIsSpace c then ' ' else c]
  | c :: d :: rest =>
    if pyIsSpace c && pyIsSpace d then collapseWS (d :: rest)
    else (if pyIsSpace c then ' ' else c) :: collapseWS (d :: rest)

/-- Python `str.strip()`: drop whitespace from both ends. -/
def stripWS (l : List Char) : List Char :=
  (((l.dropWhile pyIsSpace).reverse.dropWhile pyIsSpace)).reverse

/-- Line 65 of the extractor: `re.sub(r'\s+', ' ', snippet).strip()`. -/
def normalizeWS (l : List Char) : List Char :=
  stripWS (collapseWS l)

/-- Lines 47-65 of the extractor loop body, for one match `(start, end)`:
raw window arithmetic (clamped by `Nat` subtraction and `min`), boundary
cleaning, slicing and whitespace normalization. -/
def snippetFor (t : List Char) (m : Nat × Nat) : List Char :=
  let rawStart := m.1 - CONTEXT_WINDOW_SIZE
  let rawEnd := min t.length (m.2 + CONTEXT_WINDOW_SIZE)
  normalizeWS (pySlice t (cleanStart t rawStart) (cleanEnd t rawEnd))

/-- The `extract_snippets` function: one snippet per keyword match, empty
normalized snippets dropped (`if snippet:`), then `list(set(snippets))`
modelled as duplicate removal (the source's set gives no ordering
guarantee; only membership and uniqueness are observable). -/
def extract_snippets (t : List Char) : List (List Char) :=
  (((finditer t).map (snippetFor t)).filter (fun s => !s.isEmpty)).dedup

/-- The JSON object read by the extractor's `main` from stdin: the three
fields it queries with `input_data.get`, each possibly absent. -/
structure ExtractInput where
  decision_id : Option String
  markdown_text : Option String
  language : Option String
deriving DecidableEq

/-- The result object the extractor writes to stdout. -/
structure ExtractResult where
  decisionId : String
  language : String
  text_rows : List (List Char)
deriving DecidableEq

/-- The structured error object the extractor writes to stderr: exactly the
two fields `error` (built from `str(e)`) and `type` (from
`type(e).__name__`). -/
structure ErrorOutput where
  error : String
  type : String
deriving DecidableEq

/-- A raised Python exception, reduced to the two attributes `main`
observes: its message and its class name. -/
structure PyException where
  msg : String
  typeName : String
deriving DecidableEq

/-- Observable effects of one extractor invocation: what is written to each
stream and the process exit status. -/
structure ExtractOutcome where
  stdout : Option ExtractResult
  stderr : Option ErrorOutput
  exitCode : Nat
deriving DecidableEq

/-- The extractor's `main` (lines 74-113): an invocation whose input
parsing or processing raises is the `Except.error` case and takes the
`except` branch (error object to stderr, `sys.exit(1)`); otherwise the
defaults `''`, `''`, `'FR'` are applied, empty text short-circuits to an
empty `text_rows`, and the result object goes to stdout with exit status 0
(the implicit exit of a Python script that returns normally). -/
def extractorMain (input : Except PyException ExtractInput) : ExtractOutcome :=
  match input with
  | .ok input_data =>
    let decision_id := input_data.decision_id.getD ""
    let markdown_text := input_data.markdown_text.getD ""
    let language := input_data.language.getD "FR"
    let result : ExtractResult :=
      if markdown_text = "" then
        { decisionId := decision_id, language := language, text_rows := [] }
      else
        { decisionId := decision_id, language := language,
          text_rows := extract_snippets markdown_text.toList }
    { stdout := some result, stderr := none, exitCode := 0 }
  | .error e =>
    { stdout := none, stderr := some { error := e.msg, type := e.typeName },
      exitCode := 1 }

/-- A parsed ranker input document: the three fields `analyze_provisions`
queries with `data.get`, each possibly absent.  A numeric `id` is modelled
by its string form: the ranker never computes with it, it is only echoed
into the report. -/
structure JsonDoc where
  decision_id : Option String
  id : Option String
  citedProvisions : Option (List String)
deriving DecidableEq

/-- A record of the ranker's `decisions` list. -/
structure DecisionRec where
  decision_id : String
  numeric_id : String
  provision_count : Nat
deriving DecidableEq

/-- The ranker's `analyze_provisions` (lines 20-38): a file whose reading
or JSON parsing raises is the `Except.error` case and yields `none`
together with the printed error line; a parsed file yields the record with
the `'Unknown'` / `[]` defaults and an empty log. -/
def analyze_provisions (path : String) (file : Except String JsonDoc) :
    Option DecisionRec × List String :=
  match file with
  | .error e => (none, ["Error processing " ++ path ++ ": " ++ e])
  | .ok data =>
    (some { decision_id := data.decision_id.getD "Unknown",
            numeric_id := data.id.getD "Unknown",
            provision_count := (data.citedProvisions.getD []).length }, [])

/-- The per-file loop of the ranker's `main` (lines 52-58): each file is
analyzed in processing order and only the non-`None` results are appended
to `decisions`. -/
def processFiles (files : List (String × Except String JsonDoc)) :
    List DecisionRec :=
  files.filterMap (fun f => (analyze_provisions f.1 f.2).1)

/-- Insertion step of the stable descending sort: `x` moves past exactly
the records with a strictly greater count, so it lands before every record
whose count is less than or equal to its own. -/
def insertDesc (x : DecisionRec) : List DecisionRec → List DecisionRec
  | [] => [x]
  | y :: ys =>
    if x.provision_count < y.provision_count then y :: insertDesc x ys
    else x :: y :: ys

/-- Line 61 of the ranker: `decisions.sort(key=lambda x: x['provision_count'],
reverse=True)`.  CPython's sort is documented to be stable with
`reverse=True` keeping equal keys in list order; any function with that
contract is determined by being a permutation, sorted descending, and
stable, and this insertion sort is proved to satisfy all three below. -/
def sortDesc : List DecisionRec → List DecisionRec
  | [] => []
  | x :: xs => insertDesc x (sortDesc xs)

/-- Lines 61-64 of the ranker: the sorted list's first 10 records. -/
def topTen (ds : List DecisionRec) : List DecisionRec :=
  (sortDesc ds).take 10

/-- Line 78 of the ranker: `sum(d['provision_count'] for d in decisions)`. -/
def totalProvisions (ds : List DecisionRec) : Nat :=
  (ds.map (fun d => d.provision_count)).sum

/-- Line 79 of the ranker:
`total_provisions / len(decisions) if decisions else 0`, with Python's
exact true division modelled in `ℚ`. -/
def avgProvisions (ds : List DecisionRec) : ℚ :=
  if ds = [] then 0
  else (totalProvisions ds : ℚ) / (ds.length : ℚ)

/-! ### Lemmas about the stable descending sort -/

theorem insertDesc_perm (x : DecisionRec) (l : List DecisionRec) :
    List.Perm (insertDesc x l) (x :: l) := by
  induction l with
  | nil => rfl
  | cons y ys ih =>
    rw [insertDesc]
    split
    · exact (ih.cons y).trans (List.Perm.swap x y ys)
    · rfl

theorem mem_insertDesc {a x : DecisionRec} {l : List DecisionRec} :
    a ∈ insertDesc x l ↔ a = x ∨ a ∈ l := by
  rw [(insertDesc_perm x l).mem_iff, List.mem_cons]

theorem pairwise_insertDesc {x : DecisionRec} {l : List DecisionRec}
    (h : List.Pairwise (fun a b => b.provision_count ≤ a.provision_count) l) :
    List.Pairwise (fun a b => b.provision_count ≤ a.provision_count)
      (insertDesc x l) := by
  induction l with
  | nil => simp [insertDesc]
  | cons y ys ih =>
    rcases List.pairwise_cons.1 h with ⟨hy, hys⟩
    rw [insertDesc]
    split
    · next hlt =>
      refine List.pairwise_cons.2 ⟨?_, ih hys⟩
      intro a ha
      rcases mem_insertDesc.1 ha with rfl | ha
      · exact Nat.le_of_lt hlt
      · exact hy a ha
    · next hge =>
      have hyx : y.provision_count ≤ x.provision_count := Nat.le_of_not_lt hge
      refine List.pairwise_cons.2 ⟨?_, h⟩
      intro a ha
      rcases List.mem_cons.1 ha with rfl | ha
      · exact hyx
      · exact Nat.le_trans (hy a ha) hyx

theorem sortDesc_perm (l : List DecisionRec) : List.Perm (sortDesc l) l := by
  induction l with
  | nil => rfl
  | cons x xs ih => exact (insertDesc_perm x (sortDesc xs)).trans (ih.cons x)

theorem sortDesc_sorted (l : List DecisionRec) :
    List.Pairwise (fun a b => b.provision_count ≤ a.provision_count)
      (sortDesc l) := by
  induction l with
  | nil => simp [sortDesc]
  | cons x xs ih => exact pairwise_insertDesc ih

theorem filter_insertDesc (x : DecisionRec) (l : List DecisionRec) (k : Nat) :
    (insertDesc x l).filter (fun r => r.provision_count == k) =
      if x.provision_count == k then
        x :: l.filter (fun r => r.provision_count == k)
      else l.filter (fun r => r.provision_count == k) := by
  induction l with
  | nil =>
    by_cases hx : x.provision_count = k <;>
      simp [insertDesc, hx]
  | cons y ys ih =>
    rw [insertDesc]
    split
    · next hlt =>
      rw [List.filter_cons, ih]
      by_cases hx : x.provision_count = k
      · have hy : ¬ y.provision_count = k := by omega
        simp [List.filter_cons, hx, hy]
      · simp [List.filter_cons, hx]
    · next hge =>
      by_cases hx : x.provision_count = k <;>
        simp [List.filter_cons, hx]

theorem sortDesc_filter (l : List DecisionRec) (k : Nat) :
    (sortDesc l).filter (fun r => r.provision_count == k) =
      l.filter (fun r => r.provision_count == k) := by
  induction l with
  | nil => rfl
  | cons x xs ih =>
    simp only [sortDesc]
    rw [filter_insertDesc, ih, List.filter_cons]

/-- C3: for every collection of successfully parsed records, the ranker's
result is the first 10 records of a descending sort by `provision_count`
that is stable: the sort permutes the parsed records, any earlier entry of
the top-10 has a count greater than or equal to any later entry's, and
records with equal counts keep the order in which their files were
processed (the sorted list filtered to any fixed count equals the parsed
list filtered to that count). -/
theorem ranker_topTen_sorted_stable
    (files : List (String × Except String JsonDoc)) :
    topTen (processFiles files) = (sortDesc (processFiles files)).take 10 ∧
    List.Perm (sortDesc (processFiles files)) (processFiles files) ∧
    (∀ k, (sortDesc (processFiles files)).filter
        (fun r => r.provision_count == k) =
      (processFiles files).filter (fun r => r.provision_count == k)) ∧
    List.Pairwise (fun a b => b.provision_count ≤ a.provision_count)
      (topTen (processFiles files)) :=
  ⟨rfl, sortDesc_perm _, fun k => sortDesc_filter _ k,
    List.Pairwise.sublist (List.take_sublist _ _) (sortDesc_sorted _)⟩

/-- C7: a file whose reading or parsing raises is skipped: it contributes
no record, its error is reported with the file path and message, and the
ranked result and aggregate statistics over the batch are exactly those of
the batch without the failing file, so one failure never prevents the
remaining files from being processed. -/
theorem ranker_failed_file_skipped
    (pre post : List (String × Except String JsonDoc)) (p msg : String) :
    (analyze_provisions p (Except.error msg)).1 = none ∧
    (analyze_provisions p (Except.error msg)).2 =
      ["Error processing " ++ p ++ ": " ++ msg] ∧
    processFiles (pre ++ (p, Except.error msg) :: post) =
      processFiles (pre ++ post) ∧
    topTen (processFiles (pre ++ (p, Except.error msg) :: post)) =
      topTen (processFiles (pre ++ post)) ∧
    totalProvisions (processFiles (pre ++ (p, Except.error msg) :: post)) =
      totalProvisions (processFiles (pre ++ post)) ∧
    avgProvisions (processFiles (pre ++ (p, Except.error msg) :: post)) =
      avgProvisions (processFiles (pre ++ post)) := by
  have h : processFiles (pre ++ (p, Except.error msg) :: post) =
      processFiles (pre ++ post) := by
    simp [processFiles, List.filterMap_append, List.filterMap_cons,
      analyze_provisions]
  exact ⟨rfl, rfl, h, by rw [h], by rw [h], by rw [h]⟩

/-- C9: the reported average equals the total provision count divided by
the number of parsed records when at least one record was parsed, and
equals 0 when zero records were parsed; the division is guarded by the
emptiness test, never evaluated on an empty record set. -/
theorem ranker_average_guarded
    (files : List (String × Except String JsonDoc)) :
    (processFiles files = [] → avgProvisions (processFiles files) = 0) ∧
    (processFiles files ≠ [] →
      avgProvisions (processFiles files) =
        (totalProvisions (processFiles files) : ℚ) /
          ((processFiles files).length : ℚ)) := by
  constructor
  · intro h
    simp [avgProvisions, h]
  · intro h
    simp [avgProvisions, h]

/-- Witness for C9: a batch with one parsed record of three provisions has
a nonempty record list and its average is the guarded quotient; a batch
with no parsable file has average 0. -/
theorem ranker_average_guarded_witness :
    processFiles [("d.json",
        Except.ok ⟨some "X1", some "42", some ["a", "b", "c"]⟩)] ≠ [] ∧
    avgProvisions (processFiles [("d.json",
        Except.ok ⟨some "X1", some "42", some ["a", "b", "c"]⟩)]) =
      (totalProvisions (processFiles [("d.json",
          Except.ok ⟨some "X1", some "42", some ["a", "b", "c"]⟩)]) : ℚ) /
        ((processFiles [("d.json",
            Except.ok ⟨some "X1", some "42", some ["a", "b", "c"]⟩)]).length : ℚ) ∧
    avgProvisions (processFiles [("bad.json", Except.error "oops")]) = 0 :=
  ⟨by decide,
    (ranker_average_guarded
      [("d.json", Except.ok ⟨some "X1", some "42", some ["a", "b", "c"]⟩)]).2
      (by decide),
    (ranker_average_guarded [("bad.json", Except.error "oops")]).1 (by decide)⟩

/-- C8: if the extractor's invocation raises (the `Except.error` case),
exactly the error object with fields `error` and `type` is written to the
standard error stream, nothing is written to standard output, and the exit
status is nonzero; if no exception is raised, the result object with
`decisionId`, `language` and `text_rows` is written to standard output, the
error stream stays empty, and the exit status is 0. -/
theorem extractor_main_error_contract
    (input : Except PyException ExtractInput) :
    (∀ e, input = Except.error e →
      (extractorMain input).stderr =
        some { error := e.msg, type := e.typeName } ∧
      (extractorMain input).stdout = none ∧
      (extractorMain input).exitCode ≠ 0) ∧
    (∀ d, input = Except.ok d →
      (extractorMain input).stdout = some
        { decisionId := d.decision_id.getD "",
          language := d.language.getD "FR",
          text_rows :=
            if d.markdown_text.getD "" = "" then []
            else extract_snippets (d.markdown_text.getD "").toList } ∧
      (extractorMain input).stderr = none ∧
      (extractorMain input).exitCode = 0) := by
  constructor
  · rintro e rfl
    refine ⟨rfl, rfl, ?_⟩
    simp [extractorMain]
  · rintro d rfl
    refine ⟨?_, rfl, rfl⟩
    by_cases h : d.markdown_text.getD "" = "" <;>
      simp [extractorMain, h]

/-- Witness for C8: a concrete failing invocation writes the error object
and nothing to stdout, and a concrete successful invocation writes the
result object with its snippet rows. -/
theorem extractor_main_error_contract_witness :
    ((extractorMain (Except.error ⟨"Expecting value", "JSONDecodeError"⟩)).stderr =
        some { error := "Expecting value", type := "JSONDecodeError" } ∧
      (extractorMain (Except.error ⟨"Expecting value", "JSONDecodeError"⟩)).stdout =
        none) ∧
    ((extractorMain (Except.ok ⟨some "D1", some "see article 5", some "NL"⟩)).stdout =
        some { decisionId := "D1", language := "NL",
               text_rows :=
                 if ((some "see article 5").getD "" : String) = "" then []
                 else extract_snippets (((some "see article 5").getD "" : String)).toList } ∧
      (extractorMain (Except.ok ⟨some "D1", some "see article 5", some "NL"⟩)).stderr =
        none ∧
      (extractorMain (Except.ok ⟨some "D1", some "see article 5", some "NL"⟩)).exitCode =
        0) :=
  ⟨⟨((extractor_main_error_contract _).1 _ rfl).1,
    ((extractor_main_error_contract _).1 _ rfl).2.1⟩,
   (extractor_main_error_contract _).2 ⟨some "D1", some "see article 5", some "NL"⟩ rfl⟩

/-! ### Lemmas about the boundary-cleaning space searches -/

theorem rfindSpace_some_spec {t : List Char} {n j : Nat}
    (h : rfindSpace t n = some j) :
    j < n ∧ t.get? j = some ' ' ∧
      ∀ j', j' < n → j < j' → t.get? j' ≠ some ' ' := by
  induction n with
  | zero => simp [rfindSpace] at h
  | succ n ih =>
    rw [rfindSpace] at h
    split at h
    · next hsp =>
      cases h
      refine ⟨Nat.lt_succ_self j, by simpa using hsp, ?_⟩
      intro j' h1 h2
      omega
    · next hsp =>
      obtain ⟨h1, h2, h3⟩ := ih h
      refine ⟨Nat.lt_succ_of_lt h1, h2, ?_⟩
      intro j' hj' hgt
      rcases Nat.lt_succ_iff_lt_or_eq.1 hj' with h4 | rfl
      · exact h3 j' h4 hgt
      · intro hc
        exact hsp (by rw [hc] ; rfl)

theorem rfindSpace_none_spec {t : List Char} {n : Nat}
    (h : rfindSpace t n = none) :
    ∀ j, j < n → t.get? j ≠ some ' ' := by
  induction n with
  | zero =>
    intro j hj
    exact absurd hj (Nat.not_lt_zero j)
  | succ n ih =>
    rw [rfindSpace] at h
    split at h
    · exact absurd h (by simp)
    · next hsp =>
      intro j hj
      rcases Nat.lt_succ_iff_lt_or_eq.1 hj with h4 | rfl
      · exact ih h j h4
      · intro hc
        exact hsp (by rw [hc] ; rfl)

theorem rfindSpace_eq_some {t : List Char} {n j : Nat}
    (hj : j < n) (hsp : t.get? j = some ' ')
    (hmax : ∀ j', j' < n → j < j' → t.get? j' ≠ some ' ') :
    rfindSpace t n = some j := by
  induction n with
  | zero => omega
  | succ n ih =>
    rw [rfindSpace]
    rcases Nat.lt_succ_iff_lt_or_eq.1 hj with h4 | rfl
    · have hn : t.get? n ≠ some ' ' := hmax n (Nat.lt_succ_self n) h4
      rw [if_neg (by simpa using hn)]
      exact ih h4 (fun j' a b => hmax j' (Nat.lt_succ_of_lt a) b)
    · rw [if_pos (by rw [hsp] ; rfl)]

theorem findSpaceAux_succ (t : List Char) (i fuel : Nat) :
    findSpaceAux t i (fuel + 1) =
      match t.get? i with
      | none => none
      | some c => if c == ' ' then some i else findSpaceAux t (i + 1) fuel :=
  rfl

theorem findSpaceAux_some_spec {t : List Char} :
    ∀ {fuel i j : Nat}, findSpaceAux t i fuel = some j →
      i ≤ j ∧ j < t.length ∧ t.get? j = some ' ' ∧
        ∀ m, i ≤ m → m < j → t.get? m ≠ some ' ' := by
  intro fuel
  induction fuel with
  | zero =>
    intro i j h
    simp [findSpaceAux] at h
  | succ fuel ih =>
    intro i j h
    rw [findSpaceAux_succ] at h
    cases hg : t.get? i with
    | none =>
      rw [hg] at h
      cases h
    | some c =>
      rw [hg] at h
      dsimp only at h
      by_cases hc : c = ' '
      · subst hc
        simp only [beq_self_eq_true, if_true] at h
        cases h
        have hjlen : i < t.length := by
          by_contra hle
          rw [List.get?_eq_none.2 (by omega)] at hg
          exact Option.noConfusion hg
        exact ⟨Nat.le_refl i, hjlen, hg, fun m h1 h2 => by omega⟩
      · rw [if_neg (by simpa using hc)] at h
        obtain ⟨h1, h2, h3, h4⟩ := ih h
        refine ⟨by omega, h2, h3, ?_⟩
        intro m hm1 hm2
        rcases Nat.eq_or_lt_of_le hm1 with rfl | hlt
        · rw [hg]
          intro hc2
          cases hc2
          exact hc rfl
        · exact h4 m hlt hm2

theorem findSpaceAux_none_spec {t : List Char} :
    ∀ {fuel i : Nat}, t.length ≤ i + fuel → findSpaceAux t i fuel = none →
      ∀ j, i ≤ j → t.get? j ≠ some ' ' := by
  intro fuel
  induction fuel with
  | zero =>
    intro i hlen _ j hj
    rw [List.get?_eq_none.2 (by omega)]
    exact fun hc => Option.noConfusion hc
  | succ fuel ih =>
    intro i hlen h j hj
    rw [findSpaceAux_succ] at h
    cases hg : t.get? i with
    | none =>
      have hi : t.length ≤ i := List.get?_eq_none.1 hg
      rw [List.get?_eq_none.2 (by omega)]
      exact fun hc => Option.noConfusion hc
    | some c =>
      rw [hg] at h
      dsimp only at h
      by_cases hc : c = ' '
      · subst hc
        simp only [beq_self_eq_true, if_true] at h
        cases h
      · rw [if_neg (by simpa using hc)] at h
        rcases Nat.eq_or_lt_of_le hj with rfl | hlt
        · rw [hg]
          intro hc2
          cases hc2
          exact hc rfl
        · exact ih (by omega) h j hlt

theorem findSpaceFrom_some_spec {t : List Char} {n j : Nat}
    (h : findSpaceFrom t n = some j) :
    n ≤ j ∧ j < t.length ∧ t.get? j = some ' ' ∧
      ∀ m, n ≤ m → m < j → t.get? m ≠ some ' ' :=
  findSpaceAux_some_spec h

theorem findSpaceFrom_none_spec {t : List Char} {n : Nat}
    (h : findSpaceFrom t n = none) :
    ∀ j, n ≤ j → t.get? j ≠ some ' ' :=
  findSpaceAux_none_spec (by omega) h

theorem findSpaceFrom_eq_some {t : List Char} {n j : Nat}
    (hnj : n ≤ j) (hsp : t.get? j = some ' ')
    (hmin : ∀ m, n ≤ m → m < j → t.get? m ≠ some ' ') :
    findSpaceFrom t n = some j := by
  cases hfind : findSpaceFrom t n with
  | none => exact absurd hsp (findSpaceFrom_none_spec hfind j hnj)
  | some j' =>
    obtain ⟨h1, _, h3, h4⟩ := findSpaceFrom_some_spec hfind
    rcases Nat.lt_trichotomy j' j with hlt | rfl | hgt
    · exact absurd h3 (hmin j' h1 hlt)
    · rfl
    · exact absurd hsp (h4 j hnj hgt)

theorem cleanStart_le (t : List Char) (n : Nat) : cleanStart t n ≤ n := by
  unfold cleanStart
  cases h : rfindSpace t n with
  | some j => exact (rfindSpace_some_spec h).1
  | none =>
    dsimp only
    split
    · exact Nat.le_refl n
    · exact Nat.zero_le n

theorem cleanStart_nospace (t : List Char) (n : Nat) :
    ∀ j, cleanStart t n ≤ j → j < n → t.get? j ≠ some ' ' := by
  intro j h1 h2
  unfold cleanStart at h1
  split at h1
  · next j0 hj0 => exact (rfindSpace_some_spec hj0).2.2 j h2 (by omega)
  · next hnone => exact rfindSpace_none_spec hnone j h2

theorem cleanEnd_ge (t : List Char) {n : Nat} (hn : n ≤ t.length) :
    n ≤ cleanEnd t n := by
  unfold cleanEnd
  cases h : findSpaceFrom t n with
  | some j => exact (findSpaceFrom_some_spec h).1
  | none => exact hn

theorem cleanEnd_le_length (t : List Char) (n : Nat) :
    cleanEnd t n ≤ t.length := by
  unfold cleanEnd
  cases h : findSpaceFrom t n with
  | some j => exact Nat.le_of_lt (findSpaceFrom_some_spec h).2.1
  | none => exact Nat.le_refl _

theorem cleanEnd_nospace (t : List Char) (n : Nat) :
    ∀ j, n ≤ j → j < cleanEnd t n → t.get? j ≠ some ' ' := by
  intro j h1 h2
  unfold cleanEnd at h2
  cases h : findSpaceFrom t n with
  | some j0 =>
    rw [h] at h2
    exact (findSpaceFrom_some_spec h).2.2.2 j h1 h2
  | none => exact findSpaceFrom_none_spec h j h1

/-! ### Lemmas about the keyword matcher -/

theorem matchesAt_length {t : List Char} :
    ∀ {k : List Char} {i : Nat}, matchesAt t i k = true → k ≠ [] →
      i + k.length ≤ t.length := by
  intro k
  induction k with
  | nil => intro i _ hne ; exact absurd rfl hne
  | cons c ks ih =>
    intro i h _
    rw [matchesAt] at h
    cases hg : t.get? i with
    | none => rw [hg] at h ; cases h
    | some d =>
      rw [hg] at h
      dsimp only at h
      have hi : i < t.length := by
        by_contra hle
        rw [List.get?_eq_none.2 (by omega)] at hg
        exact Option.noConfusion hg
      rw [Bool.and_eq_true] at h
      have h2 := h.2
      cases ks with
      | nil => simpa using hi
      | cons c2 ks2 =>
        have := ih h2 (by simp)
        simp only [List.length_cons] at this ⊢
        omega

theorem matchesAt_get? {t : List Char} :
    ∀ {k : List Char} {i : Nat}, matchesAt t i k = true →
      ∀ j, j < k.length →
        ∃ c d, t.get? (i + j) = some c ∧ k.get? j = some d ∧ c.toLower = d := by
  intro k
  induction k with
  | nil =>
    intro i _ j hj
    simp at hj
  | cons e ks ih =>
    intro i h j hj
    rw [matchesAt] at h
    cases hg : t.get? i with
    | none => rw [hg] at h ; cases h
    | some d =>
      rw [hg] at h
      dsimp only at h
      rw [Bool.and_eq_true] at h
      obtain ⟨h1, h2⟩ := h
      cases j with
      | zero =>
        refine ⟨d, e, by simpa using hg, rfl, by simpa using h1⟩
      | succ j =>
        obtain ⟨c, d2, hc, hd, hl⟩ := ih h2 j (by simpa using hj)
        exact ⟨c, d2, by rw [show i + (j + 1) = i + 1 + j by omega] ; exact hc,
          hd, hl⟩

theorem matchKeywordAt_spec {t : List Char} {i L : Nat}
    (h : matchKeywordAt t i = some L) :
    ∃ k, k ∈ KEYWORDS ∧ matchesAt t i k = true ∧ L = k.length ∧
      reBoundary t i = true ∧ reBoundary t (i + k.length) = true := by
  unfold matchKeywordAt at h
  split at h
  · next hb =>
    cases hf : KEYWORDS.find? (fun k => matchesAt t i k && reBoundary t (i + k.length)) with
    | none => rw [hf] at h ; cases h
    | some k =>
      rw [hf] at h
      have hfs := List.find?_some hf
      rw [Bool.and_eq_true] at hfs
      obtain ⟨h1, h2⟩ := hfs
      have hmem := List.mem_of_find?_eq_some hf
      cases h
      exact ⟨k, hmem, h1, rfl, hb, h2⟩
  · cases h

theorem keywords_facts :
    ∀ k, k ∈ KEYWORDS → k ≠ [] ∧ (∀ c, c ∈ k → pyIsSpace c = false) := by
  decide

theorem mem_finditerAux {t : List Char} :
    ∀ {fuel i s e : Nat}, (s, e) ∈ finditerAux t i fuel →
      ∃ L, matchKeywordAt t s = some L ∧ e = s + L := by
  intro fuel
  induction fuel with
  | zero =>
    intro i s e h
    simp [finditerAux] at h
  | succ fuel ih =>
    intro i s e h
    rw [finditerAux] at h
    split at h
    · simp at h
    · cases hm : matchKeywordAt t i with
      | some L =>
        rw [hm] at h
        rcases List.mem_cons.1 h with heq | htail
        · rw [Prod.mk.injEq] at heq
          obtain ⟨rfl, rfl⟩ := heq
          exact ⟨L, hm, rfl⟩
        · exact ih htail
      | none =>
        rw [hm] at h
        exact ih h

theorem mem_finditer {t : List Char} {s e : Nat}
    (h : (s, e) ∈ finditer t) :
    ∃ L, matchKeywordAt t s = some L ∧ e = s + L :=
  mem_finditerAux h

theorem finditer_bounds {t : List Char} {s e : Nat}
    (h : (s, e) ∈ finditer t) : s < e ∧ e ≤ t.length := by
  obtain ⟨L, hm, rfl⟩ := mem_finditer h
  obtain ⟨k, hk, hmat, rfl, _, _⟩ := matchKeywordAt_spec hm
  have hne := (keywords_facts k hk).1
  have hlen := matchesAt_length hmat hne
  have : 0 < k.length := List.length_pos.2 hne
  omega

/-- C10: boundary cleaning never shrinks the raw window: the clean start is
at most the raw start, the clean end is at least the raw end, and before
normalization the sliced snippet reproduces every character of the raw
window `[raw_start, raw_end)` — in particular the whole matched keyword and
everything within 250 characters of the match; the clean window may
therefore extend beyond 250 characters on either side. -/
theorem snippet_window_never_shrinks (t : List Char) (s e : Nat)
    (h : (s, e) ∈ finditer t) :
    cleanStart t (s - CONTEXT_WINDOW_SIZE) ≤ s - CONTEXT_WINDOW_SIZE ∧
    min t.length (e + CONTEXT_WINDOW_SIZE) ≤
      cleanEnd t (min t.length (e + CONTEXT_WINDOW_SIZE)) ∧
    ∀ p, s - CONTEXT_WINDOW_SIZE ≤ p →
      p < min t.length (e + CONTEXT_WINDOW_SIZE) →
      (pySlice t (cleanStart t (s - CONTEXT_WINDOW_SIZE))
          (cleanEnd t (min t.length (e + CONTEXT_WINDOW_SIZE)))).get?
        (p - cleanStart t (s - CONTEXT_WINDOW_SIZE)) = t.get? p := by
  refine ⟨cleanStart_le t _, cleanEnd_ge t (Nat.min_le_left _ _), ?_⟩
  intro p h1 h2
  have hcs := cleanStart_le t (s - CONTEXT_WINDOW_SIZE)
  have hce := cleanEnd_ge t (Nat.min_le_left t.length (e + CONTEXT_WINDOW_SIZE))
  unfold pySlice
  rw [List.get?_drop]
  have hp : cleanStart t (s - CONTEXT_WINDOW_SIZE) +
      (p - cleanStart t (s - CONTEXT_WINDOW_SIZE)) = p := by omega
  rw [hp, List.get?_take (by omega)]

/-- Witness for C10: in `"een artikel hier"` the keyword match `(4, 11)` is
found, and the clean-window slice reproduces the text's character at
position 5 of the raw window. -/
theorem snippet_window_never_shrinks_witness :
    ((4, 11) ∈ finditer "een artikel hier".toList) ∧
    (pySlice "een artikel hier".toList
        (cleanStart "een artikel hier".toList (4 - CONTEXT_WINDOW_SIZE))
        (cleanEnd "een artikel hier".toList
          (min "een artikel hier".toList.length (11 + CONTEXT_WINDOW_SIZE)))).get?
      (5 - cleanStart "een artikel hier".toList (4 - CONTEXT_WINDOW_SIZE)) =
      "een artikel hier".toList.get? 5 :=
  ⟨by decide,
    (snippet_window_never_shrinks "een artikel hier".toList 4 11 (by decide)).2.2 5
      (by decide) (by decide)⟩

/-- C2: for every keyword match, with `raw_start = max(0, s - 250)` (the
clamp is `Nat` subtraction) and `raw_end = min(len, e + 250)`: the clean
start is the position immediately after the last space before the raw
start; when no space exists below the raw start and the raw start is
positive, the clean start is the raw start itself; the clean end is the
first space at or after the raw end, or the text's length when no such
space exists; and the snippet for the match is the normalization of the
substring `[clean_start, clean_end)`. -/
theorem clean_boundary_spec (t : List Char) (s e : Nat)
    (h : (s, e) ∈ finditer t) :
    (∀ j, j < s - CONTEXT_WINDOW_SIZE → t.get? j = some ' ' →
      (∀ j', j' < s - CONTEXT_WINDOW_SIZE → j < j' → t.get? j' ≠ some ' ') →
      cleanStart t (s - CONTEXT_WINDOW_SIZE) = j + 1) ∧
    ((∀ j, j < s - CONTEXT_WINDOW_SIZE → t.get? j ≠ some ' ') →
      0 < s - CONTEXT_WINDOW_SIZE →
      cleanStart t (s - CONTEXT_WINDOW_SIZE) = s - CONTEXT_WINDOW_SIZE) ∧
    (∀ j, min t.length (e + CONTEXT_WINDOW_SIZE) ≤ j → t.get? j = some ' ' →
      (∀ j', j' < t.length → min t.length (e + CONTEXT_WINDOW_SIZE) ≤ j' →
        j' < j → t.get? j' ≠ some ' ') →
      cleanEnd t (min t.length (e + CONTEXT_WINDOW_SIZE)) = j) ∧
    ((∀ j, j < t.length → min t.length (e + CONTEXT_WINDOW_SIZE) ≤ j →
        t.get? j ≠ some ' ') →
      cleanEnd t (min t.length (e + CONTEXT_WINDOW_SIZE)) = t.length) ∧
    snippetFor t (s, e) =
      normalizeWS (pySlice t (cleanStart t (s - CONTEXT_WINDOW_SIZE))
        (cleanEnd t (min t.length (e + CONTEXT_WINDOW_SIZE)))) := by
  refine ⟨?_, ?_, ?_, ?_, rfl⟩
  · intro j hj hsp hmax
    unfold cleanStart
    rw [rfindSpace_eq_some hj hsp hmax]
  · intro hnone hpos
    unfold cleanStart
    cases hr : rfindSpace t (s - CONTEXT_WINDOW_SIZE) with
    | some j0 =>
      obtain ⟨h1, h2, _⟩ := rfindSpace_some_spec hr
      exact absurd h2 (hnone j0 h1)
    | none =>
      dsimp only
      rw [if_pos hpos]
  · intro j hj hsp hmin
    unfold cleanEnd
    rw [findSpaceFrom_eq_some hj hsp ?_]
    intro m hm1 hm2
    by_cases hml : m < t.length
    · exact hmin m hml hm1 hm2
    · rw [List.get?_eq_none.2 (by omega)]
      exact fun hc => Option.noConfusion hc
  · intro hnone
    unfold cleanEnd
    cases hf : findSpaceFrom t (min t.length (e + CONTEXT_WINDOW_SIZE)) with
    | some j0 =>
      obtain ⟨h1, h2, h3, _⟩ := findSpaceFrom_some_spec hf
      exact absurd h3 (hnone j0 h2 h1)
    | none => rfl

/-- Witness for C2: in `"zie artikel 7"` the keyword match `(4, 11)` is
found, there is no space at or after the raw end `min(13, 261) = 13`, and
the clean end is the text's length. -/
theorem clean_boundary_spec_witness :
    ((4, 11) ∈ finditer "zie artikel 7".toList) ∧
    cleanEnd "zie artikel 7".toList
        (min "zie artikel 7".toList.length (11 + CONTEXT_WINDOW_SIZE)) =
      "zie artikel 7".toList.length :=
  ⟨by decide,
    (clean_boundary_spec "zie artikel 7".toList 4 11 (by decide)).2.2.2.1
      (fun j h1 h2 => absurd (Nat.lt_of_lt_of_le h1 h2) (Nat.lt_irrefl j))⟩

/-! ### Lemmas about whitespace normalization -/

theorem pyIsSpace_ite (c : Char) :
    pyIsSpace (if pyIsSpace c then ' ' else c) = pyIsSpace c := by
  by_cases hc : pyIsSpace c = true
  · rw [if_pos hc, hc] ; rfl
  · rw [if_neg hc]

theorem collapseWS_one (c : Char) :
    collapseWS [c] = [if pyIsSpace c then ' ' else c] := rfl

theorem collapseWS_two (c d : Char) (rest : List Char) :
    collapseWS (c :: d :: rest) =
      if pyIsSpace c && pyIsSpace d then collapseWS (d :: rest)
      else (if pyIsSpace c then ' ' else c) :: collapseWS (d :: rest) := rfl

theorem collapseWS_cons : ∀ (rest : List Char) (c : Char),
    ∃ tl, collapseWS (c :: rest) = (if pyIsSpace c then ' ' else c) :: tl := by
  intro rest
  induction rest with
  | nil => intro c ; exact ⟨[], rfl⟩
  | cons d rest2 ih =>
    intro c
    by_cases h : (pyIsSpace c && pyIsSpace d) = true
    · rw [Bool.and_eq_true] at h
      obtain ⟨tl, htl⟩ := ih d
      refine ⟨tl, ?_⟩
      rw [collapseWS_two, if_pos (by rw [h.1, h.2] ; rfl), htl, if_pos h.2,
        if_pos h.1]
    · refine ⟨collapseWS (d :: rest2), ?_⟩
      rw [collapseWS_two, if_neg h]

theorem collapseWS_chain (l : List Char) :
    List.Chain' (fun a b => ¬(pyIsSpace a = true ∧ pyIsSpace b = true))
      (collapseWS l) := by
  induction l with
  | nil => simp [collapseWS]
  | cons c rest ih =>
    cases rest with
    | nil =>
      rw [collapseWS_one]
      exact List.chain'_singleton _
    | cons d rest2 =>
      rw [collapseWS_two]
      by_cases h : (pyIsSpace c && pyIsSpace d) = true
      · rw [if_pos h]
        exact ih
      · rw [if_neg h]
        obtain ⟨tl, htl⟩ := collapseWS_cons rest2 d
        rw [htl]
        rw [htl] at ih
        refine List.chain'_cons.2 ⟨?_, ih⟩
        intro hab
        obtain ⟨h1, h2⟩ := hab
        rw [pyIsSpace_ite] at h1
        rw [pyIsSpace_ite] at h2
        exact h (by rw [h1, h2] ; rfl)

theorem dropWhile_head_not (p : Char → Bool) :
    ∀ (l : List Char) (h : Char), (l.dropWhile p).head? = some h →
      p h = false := by
  intro l
  induction l with
  | nil =>
    intro h hh
    cases hh
  | cons c rest ih =>
    intro h hh
    rw [List.dropWhile_cons] at hh
    split at hh
    · exact ih h hh
    · next hp =>
      cases hh
      simpa using hp

theorem chain'_dropWhile {R : Char → Char → Prop} (p : Char → Bool)
    {l : List Char} (h : List.Chain' R l) :
    List.Chain' R (l.dropWhile p) := by
  obtain ⟨pre, hpre⟩ := List.dropWhile_suffix p (l := l)
  rw [← hpre] at h
  exact (List.chain'_append.1 h).2.1

theorem stripWS_chain {R : Char → Char → Prop} {l : List Char}
    (h : List.Chain' R l) : List.Chain' R (stripWS l) := by
  unfold stripWS
  rw [List.chain'_reverse]
  apply chain'_dropWhile
  rw [List.chain'_reverse]
  apply chain'_dropWhile
  exact h

theorem stripWS_getLast_not_ws {l : List Char} {h : Char}
    (hh : (stripWS l).getLast? = some h) : pyIsSpace h = false := by
  unfold stripWS at hh
  rw [List.getLast?_reverse] at hh
  exact dropWhile_head_not _ _ _ hh

theorem stripWS_head_not_ws {l : List Char} {h : Char}
    (hh : (stripWS l).head? = some h) : pyIsSpace h = false := by
  unfold stripWS at hh
  rw [List.head?_reverse] at hh
  obtain ⟨pre, hpre⟩ :=
    List.dropWhile_suffix pyIsSpace (l := (l.dropWhile pyIsSpace).reverse)
  have hgl : (pre ++
      (l.dropWhile pyIsSpace).reverse.dropWhile pyIsSpace).getLast? =
      some h := by
    rw [List.getLast?_append, hh]
    rfl
  rw [hpre, List.getLast?_reverse] at hgl
  exact dropWhile_head_not _ _ _ hgl

theorem normalizeWS_chain (x : List Char) :
    List.Chain' (fun a b => ¬(pyIsSpace a = true ∧ pyIsSpace b = true))
      (normalizeWS x) :=
  stripWS_chain (collapseWS_chain x)

theorem normalizeWS_head_not_ws {x : List Char} {h : Char}
    (hh : (normalizeWS x).head? = some h) : pyIsSpace h = false :=
  stripWS_head_not_ws hh

theorem normalizeWS_getLast_not_ws {x : List Char} {h : Char}
    (hh : (normalizeWS x).getLast? = some h) : pyIsSpace h = false :=
  stripWS_getLast_not_ws hh

/-- C4: every entry of the extractor's result is non-empty, has no two
adjacent whitespace characters and no leading or trailing whitespace (every
whitespace run was collapsed to one space and the ends trimmed), and is the
whitespace normalization of a contiguous substring `[a, b)` of the input
that encloses at least one keyword occurrence. -/
theorem extract_snippets_invariant (t : List Char) :
    ∀ r, r ∈ extract_snippets t →
      r ≠ [] ∧
      List.Chain' (fun a b => ¬(pyIsSpace a = true ∧ pyIsSpace b = true)) r ∧
      (∀ h, r.head? = some h → pyIsSpace h = false) ∧
      (∀ h, r.getLast? = some h → pyIsSpace h = false) ∧
      ∃ a b s e, (s, e) ∈ finditer t ∧ a ≤ s ∧ e ≤ b ∧ a ≤ b ∧
        b ≤ t.length ∧ r = normalizeWS (pySlice t a b) := by
  intro r hr
  rw [extract_snippets, List.mem_dedup, List.mem_filter] at hr
  obtain ⟨hmap, hne⟩ := hr
  rw [List.mem_map] at hmap
  obtain ⟨⟨s, e⟩, hmem, hsnip⟩ := hmap
  obtain ⟨hse, hel⟩ := finditer_bounds hmem
  have hcs := cleanStart_le t (s - CONTEXT_WINDOW_SIZE)
  have hce := cleanEnd_ge t (Nat.min_le_left t.length (e + CONTEXT_WINDOW_SIZE))
  have hcel := cleanEnd_le_length t (min t.length (e + CONTEXT_WINDOW_SIZE))
  have hemin : e ≤ min t.length (e + CONTEXT_WINDOW_SIZE) :=
    Nat.le_min.2 ⟨hel, Nat.le_add_right e CONTEXT_WINDOW_SIZE⟩
  have hnorm : r = normalizeWS (pySlice t (cleanStart t (s - CONTEXT_WINDOW_SIZE))
      (cleanEnd t (min t.length (e + CONTEXT_WINDOW_SIZE)))) := hsnip.symm
  refine ⟨?_, ?_, ?_, ?_,
    cleanStart t (s - CONTEXT_WINDOW_SIZE),
    cleanEnd t (min t.length (e + CONTEXT_WINDOW_SIZE)), s, e, hmem,
    by omega, by omega, by omega, hcel, hnorm⟩
  · intro hnil
    rw [hnil] at hne
    cases hne
  · rw [hnorm]
    exact normalizeWS_chain _
  · intro h hh
    rw [hnorm] at hh
    exact normalizeWS_head_not_ws hh
  · intro h hh
    rw [hnorm] at hh
    exact normalizeWS_getLast_not_ws hh

/-- Witness for C4: the text `"see article 5"` yields the snippet
`"see article 5"` itself, which is non-empty. -/
theorem extract_snippets_invariant_witness :
    ("see article 5".toList ∈ extract_snippets "see article 5".toList) ∧
    "see article 5".toList ≠ [] :=
  ⟨by decide,
    (extract_snippets_invariant "see article 5".toList
      "see article 5".toList (by decide)).1⟩

/-- C6: each distinct snippet string appears at most once in the
extractor's result, the deduplication changes membership in no way (a
string is in the result exactly when it is one of the per-match snippets),
and two runs over equal texts yield the same set of snippets. -/
theorem extract_snippets_unique (t₁ t₂ : List Char) (heq : t₁ = t₂) :
    (extract_snippets t₁).Nodup ∧
    (∀ r, r ∈ extract_snippets t₁ ↔
      r ∈ ((finditer t₁).map (snippetFor t₁)).filter (fun s => !s.isEmpty)) ∧
    (∀ r, r ∈ extract_snippets t₁ ↔ r ∈ extract_snippets t₂) := by
  subst heq
  exact ⟨List.nodup_dedup _, fun r => List.mem_dedup, fun r => Iff.rfl⟩

/-- Witness for C6: a text with two occurrences of `artikel 3` produces
duplicate raw snippets, and the deduplicated result has no duplicates. -/
theorem extract_snippets_unique_witness :
    ("artikel 3 en artikel 3".toList = "artikel 3 en artikel 3".toList) ∧
    (extract_snippets "artikel 3 en artikel 3".toList).Nodup :=
  ⟨rfl, (extract_snippets_unique "artikel 3 en artikel 3".toList
    "artikel 3 en artikel 3".toList rfl).1⟩

/-! ### Lemmas about keyword slices inside snippets -/

theorem pySlice_split (t : List Char) {a b c : Nat} (h1 : a ≤ b) (h2 : b ≤ c) :
    pySlice t a c = pySlice t a b ++ pySlice t b c := by
  unfold pySlice
  rw [← List.take_append_drop (b - a) ((t.take c).drop a)]
  congr 1
  · rw [List.take_drop]
    have hab : a + (b - a) = b := by omega
    rw [hab, List.take_take]
    have hbc : b ⊓ c = b := Nat.min_eq_left h2
    rw [hbc]
  · rw [List.drop_drop]
    have hab : a + (b - a) = b := by omega
    rw [hab]

theorem toLower_of_pyIsSpace {c : Char} (h : pyIsSpace c = true) :
    c.toLower = c := by
  unfold pyIsSpace at h
  simp only [Bool.or_eq_true, beq_iff_eq] at h
  rcases h with ((((h | h) | h) | h) | h) | h <;> subst h <;> decide

theorem match_slice_nonws {t : List Char} {s e : Nat}
    (h : (s, e) ∈ finditer t) :
    pySlice t s e ≠ [] ∧ ∀ c ∈ pySlice t s e, pyIsSpace c = false := by
  obtain ⟨L, hm, rfl⟩ := mem_finditer h
  obtain ⟨k, hk, hmat, rfl, _, _⟩ := matchKeywordAt_spec hm
  obtain ⟨hse, hel⟩ := finditer_bounds h
  have hlen : (pySlice t s (s + k.length)).length = k.length := by
    unfold pySlice
    rw [List.length_drop, List.length_take]
    omega
  constructor
  · intro hnil
    rw [hnil] at hlen
    have hkne := (keywords_facts k hk).1
    have : 0 < k.length := List.length_pos.2 hkne
    simp at hlen
    omega
  · intro c hc
    obtain ⟨n, hn⟩ := List.mem_iff_get?.1 hc
    have hnlt : n < k.length := by
      by_contra hge
      rw [List.get?_eq_none.2 (by omega)] at hn
      cases hn
    have hgt : t.get? (s + n) = some c := by
      have : (pySlice t s (s + k.length)).get? n = (t.take (s + k.length)).get? (s + n) := by
        unfold pySlice
        rw [List.get?_drop]
      rw [this, List.get?_take (by omega)] at hn
      exact hn
    obtain ⟨c', d, hc', hd, hlow⟩ := matchesAt_get? hmat n hnlt
    rw [hgt] at hc'
    cases hc'
    have hdk : d ∈ k := List.get?_mem hd
    have hdns := (keywords_facts k hk).2 d hdk
    by_contra hws
    have hws' : pyIsSpace c = true := by
      cases hb : pyIsSpace c
      · exact absurd hb hws
      · rfl
    rw [toLower_of_pyIsSpace hws'] at hlow
    rw [← hlow] at hdns
    rw [hws'] at hdns
    cases hdns

theorem collapseWS_cons_nonws {c : Char} (hc : pyIsSpace c = false)
    (m : List Char) : collapseWS (c :: m) = c :: collapseWS m := by
  cases m with
  | nil =>
    rw [collapseWS_one, if_neg (by rw [hc] ; exact Bool.false_ne_true)]
    rfl
  | cons d m2 =>
    rw [collapseWS_two, if_neg (by rw [hc] ; simp),
      if_neg (by rw [hc] ; exact Bool.false_ne_true)]

theorem collapseWS_append_nonws :
    ∀ (w m : List Char), (∀ c ∈ w, pyIsSpace c = false) →
      collapseWS (w ++ m) = w ++ collapseWS m := by
  intro w
  induction w with
  | nil => intro m _ ; rfl
  | cons c w' ih =>
    intro m hnws
    rw [List.cons_append, collapseWS_cons_nonws (hnws c (List.mem_cons_self c w')),
      ih m (fun d hd => hnws d (List.mem_cons_of_mem c hd))]
    rfl

theorem infix_collapseWS (w : List Char) (hw : w ≠ [])
    (hnws : ∀ c ∈ w, pyIsSpace c = false) :
    ∀ l₁ l₂, ∃ u v, collapseWS (l₁ ++ w ++ l₂) = u ++ w ++ v := by
  intro l₁
  induction l₁ with
  | nil =>
    intro l₂
    refine ⟨[], collapseWS l₂, ?_⟩
    exact collapseWS_append_nonws w l₂ hnws
  | cons c l₁' ih =>
    intro l₂
    have hcons : (c :: l₁') ++ w ++ l₂ = c :: (l₁' ++ w ++ l₂) := by simp
    cases hrest : l₁' ++ w ++ l₂ with
    | nil =>
      obtain ⟨h12, _⟩ := List.append_eq_nil.1 hrest
      obtain ⟨_, hw0⟩ := List.append_eq_nil.1 h12
      exact absurd hw0 hw
    | cons d rest2 =>
      rw [hcons, hrest, collapseWS_two]
      by_cases hb : (pyIsSpace c && pyIsSpace d) = true
      · rw [if_pos hb]
        obtain ⟨u, v, huv⟩ := ih l₂
        rw [hrest] at huv
        exact ⟨u, v, huv⟩
      · rw [if_neg hb]
        obtain ⟨u, v, huv⟩ := ih l₂
        rw [hrest] at huv
        refine ⟨(if pyIsSpace c then ' ' else c) :: u, v, ?_⟩
        rw [huv]
        simp

theorem dropWhile_keeps (w : List Char) (hw : w ≠ [])
    (hnws : ∀ c ∈ w, pyIsSpace c = false) :
    ∀ u v, ∃ u' v', (u ++ w ++ v).dropWhile pyIsSpace = u' ++ w ++ v' := by
  intro u
  induction u with
  | nil =>
    intro v
    cases w with
    | nil => exact absurd rfl hw
    | cons c w2 =>
      refine ⟨[], v, ?_⟩
      have hc := hnws c (List.mem_cons_self c w2)
      simp [List.dropWhile_cons, hc]
  | cons x u' ih =>
    intro v
    rw [show (x :: u') ++ w ++ v = x :: (u' ++ w ++ v) from rfl,
      List.dropWhile_cons]
    by_cases hx : pyIsSpace x = true
    · rw [if_pos hx]
      exact ih v
    · rw [if_neg hx]
      exact ⟨x :: u', v, rfl⟩

theorem stripWS_keeps (w : List Char) (hw : w ≠ [])
    (hnws : ∀ c ∈ w, pyIsSpace c = false) {m : List Char}
    (h : ∃ u v, m = u ++ w ++ v) :
    ∃ u v, stripWS m = u ++ w ++ v := by
  obtain ⟨u, v, rfl⟩ := h
  obtain ⟨u1, v1, h1⟩ := dropWhile_keeps w hw hnws u v
  unfold stripWS
  rw [h1]
  have hwr : w.reverse ≠ [] := fun hc => hw (List.reverse_eq_nil_iff.1 hc)
  have hnwsr : ∀ c ∈ w.reverse, pyIsSpace c = false :=
    fun c hc => hnws c (List.mem_reverse.1 hc)
  have hrev : (u1 ++ w ++ v1).reverse = v1.reverse ++ w.reverse ++ u1.reverse := by
    simp
  rw [hrev]
  obtain ⟨u2, v2, h2⟩ := dropWhile_keeps w.reverse hwr hnwsr v1.reverse u1.reverse
  rw [h2]
  refine ⟨v2.reverse, u2.reverse, ?_⟩
  simp

theorem normalizeWS_keeps (w : List Char) (hw : w ≠ [])
    (hnws : ∀ c ∈ w, pyIsSpace c = false) (l₁ l₂ : List Char) :
    ∃ u v, normalizeWS (l₁ ++ w ++ l₂) = u ++ w ++ v := by
  unfold normalizeWS
  exact stripWS_keeps w hw hnws (infix_collapseWS w hw hnws l₁ l₂)

/-- C5 (amended): for a text in which the pattern finds exactly one match,
the extractor produces exactly one snippet; the snippet contains the
matched keyword text, is whitespace-normalized with neither leading nor
trailing whitespace; the raw window extends at most 250 characters beyond
the match on each side, and boundary cleaning moves each edge further only
across space-free characters: no space lies strictly between a clean
boundary and its raw boundary. -/
theorem single_match_snippet (t : List Char) (s e : Nat)
    (h : finditer t = [(s, e)]) :
    extract_snippets t = [snippetFor t (s, e)] ∧
    (∃ u v, snippetFor t (s, e) = u ++ pySlice t s e ++ v) ∧
    (∀ hc, (snippetFor t (s, e)).head? = some hc → pyIsSpace hc = false) ∧
    (∀ hc, (snippetFor t (s, e)).getLast? = some hc → pyIsSpace hc = false) ∧
    cleanStart t (s - CONTEXT_WINDOW_SIZE) ≤ s - CONTEXT_WINDOW_SIZE ∧
    min t.length (e + CONTEXT_WINDOW_SIZE) ≤
      cleanEnd t (min t.length (e + CONTEXT_WINDOW_SIZE)) ∧
    (∀ j, cleanStart t (s - CONTEXT_WINDOW_SIZE) ≤ j →
      j < s - CONTEXT_WINDOW_SIZE → t.get? j ≠ some ' ') ∧
    (∀ j, min t.length (e + CONTEXT_WINDOW_SIZE) ≤ j →
      j < cleanEnd t (min t.length (e + CONTEXT_WINDOW_SIZE)) →
      t.get? j ≠ some ' ') := by
  have hmem : (s, e) ∈ finditer t := by
    rw [h]
    exact List.mem_singleton.2 rfl
  obtain ⟨hse, hel⟩ := finditer_bounds hmem
  obtain ⟨hwne, hwnws⟩ := match_slice_nonws hmem
  have hcsle : cleanStart t (s - CONTEXT_WINDOW_SIZE) ≤
      s - CONTEXT_WINDOW_SIZE := cleanStart_le t _
  have hcele : min t.length (e + CONTEXT_WINDOW_SIZE) ≤
      cleanEnd t (min t.length (e + CONTEXT_WINDOW_SIZE)) :=
    cleanEnd_ge t (Nat.min_le_left _ _)
  have hemin : e ≤ min t.length (e + CONTEXT_WINDOW_SIZE) :=
    Nat.le_min.2 ⟨hel, Nat.le_add_right _ _⟩
  have h1 : cleanStart t (s - CONTEXT_WINDOW_SIZE) ≤ s := by omega
  have h2 : e ≤ cleanEnd t (min t.length (e + CONTEXT_WINDOW_SIZE)) := by
    omega
  have hsplit : pySlice t (cleanStart t (s - CONTEXT_WINDOW_SIZE))
      (cleanEnd t (min t.length (e + CONTEXT_WINDOW_SIZE))) =
      (pySlice t (cleanStart t (s - CONTEXT_WINDOW_SIZE)) s ++
        pySlice t s e) ++
      pySlice t e (cleanEnd t (min t.length (e + CONTEXT_WINDOW_SIZE))) := by
    rw [pySlice_split t h1 (by omega), pySlice_split t (Nat.le_of_lt hse) h2,
      List.append_assoc]
  have hsnipeq : snippetFor t (s, e) =
      normalizeWS ((pySlice t (cleanStart t (s - CONTEXT_WINDOW_SIZE)) s ++
        pySlice t s e) ++
        pySlice t e (cleanEnd t (min t.length (e + CONTEXT_WINDOW_SIZE)))) := by
    show normalizeWS _ = _
    rw [← hsplit]
  obtain ⟨u, v, huv⟩ := normalizeWS_keeps (pySlice t s e) hwne hwnws
    (pySlice t (cleanStart t (s - CONTEXT_WINDOW_SIZE)) s)
    (pySlice t e (cleanEnd t (min t.length (e + CONTEXT_WINDOW_SIZE))))
  have hinf : snippetFor t (s, e) = u ++ pySlice t s e ++ v := by
    rw [hsnipeq]
    exact huv
  have hne : snippetFor t (s, e) ≠ [] := by
    rw [hinf]
    intro hnil
    obtain ⟨huw, _⟩ := List.append_eq_nil.1 hnil
    obtain ⟨_, hw0⟩ := List.append_eq_nil.1 huw
    exact hwne hw0
  have hres : extract_snippets t = [snippetFor t (s, e)] := by
    rw [extract_snippets, h, List.map_cons, List.map_nil, List.filter_cons]
    have hbe : (!(snippetFor t (s, e)).isEmpty) = true := by
      have hie : (snippetFor t (s, e)).isEmpty = false := by
        cases hb : (snippetFor t (s, e)).isEmpty
        · rfl
        · exact absurd (List.isEmpty_iff.1 hb) hne
      rw [hie]
      rfl
    rw [if_pos hbe, List.filter_nil,
      List.dedup_cons_of_not_mem (List.not_mem_nil _), List.dedup_nil]
  refine ⟨hres, ⟨u, v, hinf⟩, ?_, ?_, hcsle, hcele,
    cleanStart_nospace t _, cleanEnd_nospace t _⟩
  · intro hc hh
    exact normalizeWS_head_not_ws hh
  · intro hc hh
    exact normalizeWS_getLast_not_ws hh

/-- Witness for C5's amended statement: `"the article 5 here"` has exactly
one match `(4, 11)` and the extractor emits exactly its snippet. -/
theorem single_match_snippet_witness :
    (finditer "the article 5 here".toList = [(4, 11)]) ∧
    extract_snippets "the article 5 here".toList =
      [snippetFor "the article 5 here".toList (4, 11)] :=
  ⟨by decide, (single_match_snippet "the article 5 here".toList 4 11
    (by decide)).1⟩

/-- Helper for long test texts: `n` concatenated copies of `s`. -/
def repChars (n : Nat) (s : List Char) : List Char :=
  match n with
  | 0 => []
  | n + 1 => s ++ repChars n s

/-- A 531-character text: 29 blocks of `aaaaaaaa `, then `article 5`, then
29 blocks of ` aaaaaaaa`; the single match sits at offsets 261-268 and the
spaces fall at offsets not aligned with the raw window edges 11 and 518. -/
def exC5 : List Char :=
  repChars 29 "aaaaaaaa ".toList ++ "article 5".toList ++
    repChars 29 " aaaaaaaa".toList

/-- C5 (counterexample): on `exC5` the extractor produces exactly one
snippet, but that snippet is the substring `[9, 522)` — it starts 252
characters before the match start 261 and ends 254 characters after the
match end 268, so it extends more than 250 characters beyond the match on
both sides, and its length 513 exceeds the 507-character bound implied by
the claim. -/
theorem snippet_exceeds_window :
    finditer exC5 = [(261, 268)] ∧
    extract_snippets exC5 = [pySlice exC5 9 522] ∧
    261 - CONTEXT_WINDOW_SIZE = 11 ∧
    min exC5.length (268 + CONTEXT_WINDOW_SIZE) = 518 ∧
    cleanStart exC5 11 = 9 ∧
    cleanEnd exC5 518 = 522 ∧
    (pySlice exC5 9 522).length = 513 ∧
    (268 - 261) + 2 * CONTEXT_WINDOW_SIZE < 513 := by
  decide

/-- The C1 example text: `Art. 10` at offset 0 and `article 10` at offset
50, separated by a run of `x` characters and single spaces. -/
def exC1 : List Char :=
  ("Art. 10 " ++ "xxxxxxxxxxxxxxxxxxxxxxxxxxxxxxxxxxxxxxxxx" ++
    " article 10").toList

/-- C1 (code evaluation): in `exC1` the pattern finds only the `article`
occurrence at offset 50.  The keyword `art.` is literally present at
offset 0 at a token start — `matchesAt` succeeds and the leading word
boundary holds — but the trailing `\b` of `PATTERN` fails between the
literal period and the following space, so no match is reported at offset
0 and the extractor produces no snippet for that occurrence. -/
theorem pattern_misses_abbrev_before_space :
    finditer exC1 = [(50, 57)] ∧
    matchesAt exC1 0 "art.".toList = true ∧
    reBoundary exC1 0 = true ∧
    matchKeywordAt exC1 0 = none := by
  decide
